import Mathlib

set_option maxRecDepth 40000

/-!
# Verification of the ESP32 task-list serial pipeline (`applications/lv_test.c`)

Shallow embedding of the serial packet transport and task-list parsing code of
`applications/lv_test.c`.  C strings are modelled as `List Char` (NUL-free byte
sequences; on the ARM EABI target `char` is unsigned, so a byte's value is
`Char.toNat`).  Fixed global state is passed explicitly:

* `AppState` models the globals `task_info_array`, `current_task_count`,
  `selected_task_index`.
* `ReasmState` models the globals `uart_rx_buffer`/`uart_rx_index` (as the
  buffer contents) and `in_packet`.

Library routines that the C file calls (`strstr`, `strtok`, `strchr`, `atoi`,
`rt_strncpy`, `rt_snprintf "%s%s"`) are modelled with their standard C
semantics on NUL-free strings.  `rt_malloc` is modelled as always succeeding,
and mutex acquisition as succeeding; queue sends are modelled as emitting the
copied frame.
-/

/-- Protocol constant `PKT_START` (`"<PKT_START>"`). -/
def PKT_START : List Char := "<PKT_START>".toList

/-- Protocol constant `PKT_END` (`"<PKT_END>"`). -/
def PKT_END : List Char := "<PKT_END>".toList

/-- Protocol constant `PKT_DELIMITER` (`"|"`). -/
def PKT_DELIMITER : List Char := "|".toList

/-- `UART_MSG_MAX_SIZE`: capacity of a queued message's `data` buffer. -/
def UART_MSG_MAX_SIZE : Nat := 1024

/-- `UART_RX_BUFFER_SIZE`: capacity of the accumulation buffer. -/
def UART_RX_BUFFER_SIZE : Nat := 2048

/-- `MAX_TASK_COUNT`: capacity of the task table. -/
def MAX_TASK_COUNT : Nat := 20

/-- The NUL character, terminator of C strings. -/
def NUL : Char := Char.ofNat 0

/-- C `strstr(hay, needle)`: returns the suffix of `hay` beginning at the
first occurrence of `needle`, or `none` when there is no occurrence
(`strstr` returns `hay` itself for an empty needle). -/
def strstr (hay needle : List Char) : Option (List Char) :=
  if needle.isPrefixOf hay then some hay
  else
    match hay with
    | [] => none
    | _ :: t => strstr t needle

/-- C `strchr(s, c)`: the suffix of `s` beginning at the first occurrence of
`c`, or `none`. -/
def strchr (s : List Char) (c : Char) : Option (List Char) :=
  match s with
  | [] => none
  | x :: rest => if x = c then some (x :: rest) else strchr rest c

/-- `calculate_checksum` (lv_test.c:123): `while (*data) sum += *data++;
return sum % 256;`.  The loop stops at the NUL terminator, i.e. it folds over
the longest NUL-free prefix. -/
def calculate_checksum (data : List Char) : Nat :=
  ((data.takeWhile (fun c => c != NUL)).foldl (fun sum c => sum + c.toNat) 0) % 256

/-- `verify_checksum` (lv_test.c:133): `rt_snprintf(combined, 1024, "%s%s",
type, data)` concatenates `type` and `data` truncated to 1023 characters, then
compares `calculate_checksum(combined)` with `received_checksum`. -/
def verify_checksum (type data : List Char) (received_checksum : Int) : Bool :=
  let combined := (type ++ data).take (1024 - 1)
  ((calculate_checksum combined : Int) == received_checksum)

/-- `extract_packet_field` (lv_test.c:144): find `"<field_name>:"`, take the
value up to the next `PKT_DELIMITER` (or, failing that, `PKT_END`), truncated
to `max_len - 1` characters.  Returns `[]` (empty string) when the field or
both terminators are absent. -/
def extract_packet_field (packet field_name : List Char) (max_len : Nat) : List Char :=
  let search_str := (field_name ++ [':']).take 31
  match strstr packet search_str with
  | none => []
  | some s0 =>
    let start := s0.drop search_str.length
    let stop :=
      match strstr start PKT_DELIMITER with
      | some e => some e
      | none => strstr start PKT_END
    match stop with
    | none => []
    | some e =>
      let len := start.length - e.length
      let len2 := if len ≥ max_len then max_len - 1 else len
      start.take len2

/-- C `atoi` digit loop: accumulate leading decimal digits. -/
def atoi_digits : List Char → Nat → Nat
  | [], acc => acc
  | c :: rest, acc => if c.isDigit then atoi_digits rest (acc * 10 + (c.toNat - 48)) else acc

/-- C `isspace` (the six standard whitespace characters). -/
def c_isspace (c : Char) : Bool :=
  (c == ' ') || (c == '\t') || (c == '\n') || (c == '\x0b') || (c == '\x0c') || (c == '\r')

/-- C `atoi`: skip whitespace, optional sign, then leading digits; `0` when no
digits are present. -/
def atoi (s : List Char) : Int :=
  let s1 := s.dropWhile c_isspace
  match s1 with
  | '-' :: rest => -(atoi_digits rest 0 : Int)
  | '+' :: rest => (atoi_digits rest 0 : Int)
  | _ => (atoi_digits s1 0 : Int)

/-- `task_info_t` (lv_test.c:74): one task record. -/
structure TaskInfo where
  title : List Char
  list_name : List Char
  list_num : Int
  task_num : Int
  is_valid : Bool
deriving Repr, DecidableEq

/-- A zeroed task record (`rt_memset(&task_info_array[i], 0, ...)`). -/
def emptyTask : TaskInfo :=
  { title := [], list_name := [], list_num := 0, task_num := 0, is_valid := false }

/-- The shared application state: `task_info_array`, `current_task_count`,
`selected_task_index` (lv_test.c:109-111). -/
structure AppState where
  task_info_array : List TaskInfo
  current_task_count : Nat
  selected_task_index : Nat
deriving Repr, DecidableEq

/-- The token-trimming test `*p == ' ' || *p == '\t'` (lv_test.c:294-296). -/
def isSpTab (c : Char) : Bool := (c == ' ') || (c == '\t')

/-- Whitespace trimming of a token (lv_test.c:294-296).  The C trailing loop's
`end > token` guard never matters: after the leading trim the first character
is not a space/tab, so the trailing trim cannot consume the whole token. -/
def trimTok (t : List Char) : List Char :=
  let t1 := t.dropWhile isSpTab
  ((t1.reverse.dropWhile isSpTab).reverse)

/-- The token sequence produced by `strtok(s, ",")`: maximal nonempty runs of
non-comma characters (empty pieces between consecutive commas are skipped). -/
def strtok_split : List Char → List Char → List (List Char)
  | [], acc => if acc.isEmpty then [] else [acc.reverse]
  | c :: rest, acc =>
    if c = ',' then
      if acc.isEmpty then strtok_split rest []
      else acc.reverse :: strtok_split rest []
    else strtok_split rest (c :: acc)

/-- Mutable state of the token loop of `parse_comma_separated_tasks`
(lv_test.c:287-335): the table being filled, `task_index`, the global
`current_task_count`, and the running list context `current_list_name`,
`current_list_num`. -/
structure ParseCtx where
  tasks : List TaskInfo
  task_index : Nat
  current_task_count : Nat
  current_list_name : List Char
  current_list_num : Int
deriving Repr, DecidableEq

/-- The parse context at loop entry: table cleared, counters zero, empty list
context (lv_test.c:261-266, 287-289). -/
def initParseCtx : ParseCtx :=
  { tasks := List.replicate MAX_TASK_COUNT emptyTask
    task_index := 0
    current_task_count := 0
    current_list_name := []
    current_list_num := 0 }

/-- The body of the token loop (lv_test.c:291-335): trim the token, classify
it as a list header (`"N.Name"`, no further dot), a task entry
(`"N.M.Title"`), or noise.  `rt_strncpy` into `char[64]` / `char[128]`
destinations truncates to 63 / 127 characters. -/
def processToken (ctx : ParseCtx) (tok0 : List Char) : ParseCtx :=
  let tok := trimTok tok0
  match tok with
  | c0 :: c1 :: rest =>
    if ('1' ≤ c0 ∧ c0 ≤ '9') ∧ c1 = '.' ∧ rest.contains '.' = false then
      { ctx with
          current_list_num := (c0.toNat : Int) - 48
          current_list_name := rest.take 63 }
    else if ('1' ≤ c0 ∧ c0 ≤ '9') ∧ c1 = '.' then
      match strchr rest '.' with
      | some dotSuf =>
        let r : TaskInfo :=
          { title := (dotSuf.drop 1).take 127
            list_name := ctx.current_list_name.take 63
            list_num := (c0.toNat : Int) - 48
            task_num := atoi rest
            is_valid := true }
        { ctx with
            tasks := ctx.tasks.set ctx.task_index r
            task_index := ctx.task_index + 1
            current_task_count := ctx.current_task_count + 1 }
      | none => ctx
    else ctx
  | _ => ctx

/-- The token loop `while (token != RT_NULL && task_index < MAX_TASK_COUNT)`
(lv_test.c:291-335). -/
def parseLoop : List (List Char) → ParseCtx → ParseCtx
  | [], ctx => ctx
  | tok :: rest, ctx =>
    if ctx.task_index < MAX_TASK_COUNT then parseLoop rest (processToken ctx tok)
    else ctx

/-- `parse_comma_separated_tasks` (lv_test.c:248-355).  The empty-payload path
only zeroes `current_task_count`; the `"NO_TASKS"` path additionally clears
the table; both return before the `selected_task_index` re-clamp at
lv_test.c:343-352, which only the normal path reaches.  `rt_malloc` is
modelled as succeeding. -/
def parse_comma_separated_tasks (st : AppState) (task_data : List Char) : AppState :=
  if task_data = [] then { st with current_task_count := 0 }
  else if task_data = "NO_TASKS".toList then
    { st with
        task_info_array := List.replicate MAX_TASK_COUNT emptyTask
        current_task_count := 0 }
  else
    let ctx := parseLoop (strtok_split task_data []) initParseCtx
    let sel :=
      if st.selected_task_index > ctx.current_task_count ∧ ctx.current_task_count > 0 then
        ctx.current_task_count
      else if ctx.current_task_count = 0 then 1
      else st.selected_task_index
    { task_info_array := ctx.tasks
      current_task_count := ctx.current_task_count
      selected_task_index := sel }

/-- `process_esp32_packet` (lv_test.c:360-426): reject unless `PKT_START` is
at offset 0 and `PKT_END` occurs; extract TYPE/DATA/CHECKSUM; reject on
checksum mismatch; dispatch `TASKS` to the parser.  All other packet types
leave the shared state unchanged. -/
def process_esp32_packet (st : AppState) (packet : List Char) : AppState :=
  if strstr packet PKT_START ≠ some packet then st
  else if strstr packet PKT_END = none then st
  else
    let type := extract_packet_field packet "TYPE".toList 64
    let data := extract_packet_field packet "DATA".toList 1024
    let checksum_str := extract_packet_field packet "CHECKSUM".toList 16
    let checksum := atoi checksum_str
    if verify_checksum type data checksum = false then st
    else if type = "TASKS".toList then parse_comma_separated_tasks st data
    else st

/-- The `LV_EVENT_RELEASED` action of `btn_up_event_handler`
(lv_test.c:447-455), with the mutex acquired. -/
def btn_up_event_handler (st : AppState) : AppState :=
  if st.selected_task_index > 1 then
    { st with selected_task_index := st.selected_task_index - 1 }
  else st

/-- The `LV_EVENT_RELEASED` action of `btn_down_event_handler`
(lv_test.c:480-488), with the mutex acquired. -/
def btn_down_event_handler (st : AppState) : AppState :=
  if st.selected_task_index < st.current_task_count ∧ st.current_task_count > 0 then
    { st with selected_task_index := st.selected_task_index + 1 }
  else st

/-- Reassembly state (lv_test.c:103-105): the accumulation buffer contents
(`uart_rx_buffer[0..uart_rx_index)`) and the `in_packet` flag. -/
structure ReasmState where
  buf : List Char
  in_packet : Bool
deriving Repr, DecidableEq

/-- Initial reassembly state: empty buffer, outside any packet. -/
def initReasm : ReasmState := { buf := [], in_packet := false }

/-- One iteration of the byte loop of `esp32_uart_rx_callback`
(lv_test.c:645-719): overflow reset (dropping the byte), append, start-marker
search with buffer shift and >100-byte noise discard while seeking, end-marker
search with frame emission while in a packet.  Returns the new state and the
list of frames sent to the message queue (at most one). -/
def esp32_uart_rx_byte (st : ReasmState) (ch : Char) : ReasmState × List (List Char) :=
  if st.buf.length ≥ UART_RX_BUFFER_SIZE - 1 then
    ({ buf := [], in_packet := false }, [])
  else
    let buf1 := st.buf ++ [ch]
    let seek :=
      if st.in_packet then (buf1, true)
      else
        match strstr buf1 PKT_START with
        | some t => (t, true)
        | none => ((if buf1.length > 100 then [] else buf1), false)
    let buf2 := seek.1
    if seek.2 then
      match strstr buf2 PKT_END with
      | some e =>
        let pkt_len := buf2.length - e.length + PKT_END.length
        let frame := buf2.take pkt_len
        let buf3 := if buf2.length > pkt_len then buf2.drop pkt_len else []
        ({ buf := buf3, in_packet := false }, [frame])
      | none => ({ buf := buf2, in_packet := true }, [])
    else ({ buf := buf2, in_packet := false }, [])

/-- Streaming delivery of a byte sequence, one byte at a time, to
`esp32_uart_rx_byte`; collects all emitted frames in order. -/
def esp32_uart_rx_stream : List Char → ReasmState → ReasmState × List (List Char)
  | [], st => (st, [])
  | c :: rest, st =>
    let r1 := esp32_uart_rx_byte st c
    let r2 := esp32_uart_rx_stream rest r1.1
    (r2.1, r1.2 ++ r2.2)

/-- Modelled from the spec: one step of the batch scan of §8 — "directly
scanning the whole stream for `PKT_START...PKT_END` non-overlapping spans":
find the first `PKT_START`, then the first `PKT_END` after it; the span runs
through the end marker inclusive; continue after the span.  Fuel-indexed for
termination; `batchScan` supplies sufficient fuel. -/
def batchScanFuel : Nat → List Char → List (List Char)
  | 0, _ => []
  | fuel + 1, s =>
    match strstr s PKT_START with
    | none => []
    | some t =>
      match strstr t PKT_END with
      | none => []
      | some e =>
        let pkt_len := t.length - e.length + PKT_END.length
        t.take pkt_len :: batchScanFuel fuel (t.drop pkt_len)

/-- Modelled from the spec: the batch scan of the whole stream (§8). -/
def batchScan (s : List Char) : List (List Char) := batchScanFuel s.length s

/-- A well-formed frame: starts with `PKT_START`, ends with `PKT_END`, the
end marker occurs nowhere except at the very end, fits the accumulation
buffer, and is NUL-free. -/
def wellFormedFrame (f : List Char) : Prop :=
  (∃ body, f = PKT_START ++ body ++ PKT_END) ∧
  (∀ p, p < f.length → PKT_END.isPrefixOf (f.drop p) = true → p + PKT_END.length = f.length) ∧
  f.length ≤ UART_RX_BUFFER_SIZE - 1 ∧
  (∀ c, c ∈ f → c ≠ NUL)

/-- Inter-frame noise tolerated without loss by the reassembler: at most 90
bytes, containing neither `'<'` (so no start-marker fragment) nor NUL. -/
def noiseOK (nz : List Char) : Prop :=
  nz.length ≤ 90 ∧ (∀ c, c ∈ nz → c ≠ '<' ∧ c ≠ NUL)

/-- The data-model invariant of spec §3: `selected_index` lies in
`[1, max(count,1)]`. -/
def selectedIndexInv (st : AppState) : Prop :=
  1 ≤ st.selected_task_index ∧ st.selected_task_index ≤ max st.current_task_count 1

instance decSelectedIndexInv (st : AppState) : Decidable (selectedIndexInv st) :=
  inferInstanceAs (Decidable
    (1 ≤ st.selected_task_index ∧ st.selected_task_index ≤ max st.current_task_count 1))

/-- Whether a raw comma-token is classified as a task entry by the loop body
(after trimming): leading digit `1..9`, a dot, and a further dot later. -/
def isTaskEntryTok (t : List Char) : Bool :=
  match trimTok t with
  | c0 :: c1 :: rest => (('1' ≤ c0) && (c0 ≤ '9')) && (c1 == '.') && rest.contains '.'
  | _ => false

/-- Number of task-entry tokens in a token sequence. -/
def countEntries (toks : List (List Char)) : Nat := toks.countP isTaskEntryTok

/-- The prefix of the token sequence the loop actually processes when at most
`n` more task entries fit in the table: tokens up to and including the `n`-th
task entry. -/
def takeUntilEntries : Nat → List (List Char) → List (List Char)
  | _, [] => []
  | 0, _ :: _ => []
  | n + 1, t :: r =>
    if isTaskEntryTok t then t :: takeUntilEntries n r
    else t :: takeUntilEntries (n + 1) r

/-! ## Basic facts about `strstr` -/

theorem strstr_eq_none_iff {s n : List Char} :
    strstr s n = none ↔ ∀ p, ¬ n <+: s.drop p := by
  induction s with
  | nil =>
    rw [strstr]
    split
    · rename_i h
      rw [List.isPrefixOf_iff_prefix] at h
      exact iff_of_false (by simp) (fun hall => hall 0 (by simpa using h))
    · rename_i h
      rw [List.isPrefixOf_iff_prefix] at h
      exact iff_of_true rfl (fun p hp => h (by simpa using hp))
  | cons c t ih =>
    rw [strstr]
    split
    · rename_i h
      rw [List.isPrefixOf_iff_prefix] at h
      exact iff_of_false (by simp) (fun hall => hall 0 (by simpa using h))
    · rename_i h
      rw [List.isPrefixOf_iff_prefix] at h
      rw [ih]
      constructor
      · intro h1 p
        cases p with
        | zero => simpa using h
        | succ q => exact h1 q
      · intro h1 p
        exact h1 (p + 1)

theorem strstr_eq_some_first {s n : List Char} (p : Nat)
    (hp : n <+: s.drop p) (hmin : ∀ q, q < p → ¬ n <+: s.drop q) :
    strstr s n = some (s.drop p) := by
  induction s generalizing p with
  | nil =>
    simp only [List.drop_nil] at hp ⊢
    rw [List.prefix_nil] at hp
    subst hp
    rw [strstr, if_pos (by simp)]
  | cons c t ih =>
    cases p with
    | zero =>
      rw [List.drop_zero] at hp ⊢
      rw [strstr, if_pos (List.isPrefixOf_iff_prefix.mpr hp)]
    | succ q =>
      have h0 : ¬ n <+: (c :: t) := by
        have := hmin 0 (Nat.succ_pos q)
        simpa using this
      rw [strstr, if_neg (fun hb => h0 (List.isPrefixOf_iff_prefix.mp hb))]
      exact ih q hp (fun r hr => hmin (r + 1) (Nat.succ_lt_succ hr))

theorem strstr_of_starts {s n : List Char} (h : n <+: s) : strstr s n = some s := by
  have := strstr_eq_some_first (s := s) (n := n) 0 (by simpa using h)
    (fun q hq => absurd hq (Nat.not_lt_zero q))
  simpa using this

theorem strstr_some_starts {s n t : List Char} (h : strstr s n = some t) : n <+: t := by
  induction s with
  | nil =>
    rw [strstr] at h
    split at h
    · rename_i hc
      cases h
      exact List.isPrefixOf_iff_prefix.mp hc
    · cases h
  | cons c r ih =>
    rw [strstr] at h
    split at h
    · rename_i hc
      cases h
      exact List.isPrefixOf_iff_prefix.mp hc
    · exact ih h

theorem strstr_some_suffix {s n t : List Char} (h : strstr s n = some t) : t <:+ s := by
  induction s with
  | nil =>
    rw [strstr] at h
    split at h
    · cases h; exact List.suffix_refl []
    · cases h
  | cons c r ih =>
    rw [strstr] at h
    split at h
    · cases h; exact List.suffix_refl _
    · exact (ih h).trans (List.suffix_cons c r)

theorem infix_iff_exists_drop {s n : List Char} : n <:+: s ↔ ∃ p, n <+: s.drop p := by
  constructor
  · intro h
    rcases List.infix_iff_prefix_suffix.mp h with ⟨t, hpre, hsuf⟩
    refine ⟨s.length - t.length, ?_⟩
    rw [← List.suffix_iff_eq_drop.mp hsuf]
    exact hpre
  · rintro ⟨p, hp⟩
    rcases hp with ⟨u, hu⟩
    rcases List.drop_suffix p s with ⟨v, hv⟩
    exact ⟨v, u, by rw [List.append_assoc, hu, hv]⟩

theorem strstr_eq_none_iff_no_marker {s n : List Char} :
    strstr s n = none ↔ ¬ n <:+: s := by
  rw [strstr_eq_none_iff, infix_iff_exists_drop, not_exists]

theorem strstr_none_of_short {s n : List Char} (h : s.length < n.length) :
    strstr s n = none := by
  rw [strstr_eq_none_iff]
  intro p hp
  have h1 := hp.length_le
  have h2 : (s.drop p).length ≤ s.length := by
    rw [List.length_drop]; omega
  omega

/-! ## Checksum claims -/

theorem foldl_add_toNat (s : List Char) (a : Nat) :
    s.foldl (fun sum c => sum + c.toNat) a = a + (s.map Char.toNat).sum := by
  induction s generalizing a with
  | nil => simp
  | cons c t ih =>
    simp only [List.foldl_cons, List.map_cons, List.sum_cons, ih]
    omega

/-- C10: for every NUL-free byte string `s`, `calculate_checksum s` is the sum
of the byte values of `s` modulo 256, and lies in `[0, 255]` (bytes above 127
included: on the ARM target `char` is unsigned). -/
theorem calculate_checksum_sum_mod (s : List Char) (h : ∀ c ∈ s, c ≠ NUL) :
    calculate_checksum s = (s.map Char.toNat).sum % 256 ∧ calculate_checksum s ≤ 255 := by
  have htw : s.takeWhile (fun c => c != NUL) = s :=
    List.takeWhile_eq_self_iff.mpr (fun c hc => bne_iff_ne.mpr (h c hc))
  constructor
  · rw [calculate_checksum, htw, foldl_add_toNat, Nat.zero_add]
  · rw [calculate_checksum]
    exact Nat.le_of_lt_succ (Nat.mod_lt _ (by norm_num))

/-- Witness for C10 on a concrete string containing bytes greater than 127. -/
theorem calculate_checksum_sum_mod_witness :
    calculate_checksum [Char.ofNat 200, Char.ofNat 250, 'A'] =
      (([Char.ofNat 200, Char.ofNat 250, 'A'].map Char.toNat).sum % 256) ∧
    calculate_checksum [Char.ofNat 200, Char.ofNat 250, 'A'] ≤ 255 :=
  calculate_checksum_sum_mod [Char.ofNat 200, Char.ofNat 250, 'A'] (by decide)

/-- C5 counterexample: with `type = ""` and `data` of length 1024, the
checksum of the full concatenation does not verify, because
`verify_checksum`'s 1024-byte `combined` buffer truncates the concatenation
to 1023 characters. -/
theorem verify_checksum_roundtrip_cex :
    verify_checksum [] (List.replicate 1024 'a')
      (calculate_checksum ([] ++ List.replicate 1024 'a') : Int) = false := by
  decide

/-- C5 amended: a packet whose CHECKSUM field carries
`calculate_checksum (type ++ data)` always verifies, provided
`type.length + data.length ≤ 1023` so that the concatenation fits
`verify_checksum`'s buffer untruncated. -/
theorem verify_checksum_roundtrip (type data : List Char)
    (h : type.length + data.length ≤ 1023) :
    verify_checksum type data (calculate_checksum (type ++ data) : Int) = true := by
  simp only [verify_checksum]
  rw [List.take_of_length_le (by simp only [List.length_append]; omega)]
  simp

/-- Witness for the amended C5 at a concrete type and data. -/
theorem verify_checksum_roundtrip_witness :
    verify_checksum "TASKS".toList "1.Work".toList
      (calculate_checksum ("TASKS".toList ++ "1.Work".toList) : Int) = true :=
  verify_checksum_roundtrip "TASKS".toList "1.Work".toList (by decide)

/-! ## Field extraction (C9) -/

/-- C9: on the example packet, extracting `TYPE` yields `"TASKS"` and
extracting `DATA` yields `"1.Work,1.1.Write report"`; and for any packet not
containing `"<field_name>:"` at all, extraction returns the empty string. -/
theorem extract_packet_field_spec :
    extract_packet_field
        "<PKT_START>TYPE:TASKS|DATA:1.Work,1.1.Write report|CHECKSUM:123<PKT_END>".toList
        "TYPE".toList 64 = "TASKS".toList ∧
    extract_packet_field
        "<PKT_START>TYPE:TASKS|DATA:1.Work,1.1.Write report|CHECKSUM:123<PKT_END>".toList
        "DATA".toList 1024 = "1.Work,1.1.Write report".toList ∧
    ∀ (packet field_name : List Char) (max_len : Nat),
      ¬ (field_name ++ [':']).take 31 <:+: packet →
      extract_packet_field packet field_name max_len = [] := by
  refine ⟨by decide, by decide, ?_⟩
  intro packet field_name max_len h
  simp only [extract_packet_field]
  rw [strstr_eq_none_iff_no_marker.mpr h]

/-- Witness for C9's absent-field clause at a concrete packet lacking DATA. -/
theorem extract_packet_field_spec_witness :
    extract_packet_field "<PKT_START>TYPE:TASKS|CHECKSUM:5<PKT_END>".toList
      "DATA".toList 1024 = [] :=
  extract_packet_field_spec.2.2 "<PKT_START>TYPE:TASKS|CHECKSUM:5<PKT_END>".toList
    "DATA".toList 1024 (by decide)

/-! ## Task-list parser claims (C2, C3, C6) -/

/-- Projection helper for literal `AppState` records. -/
theorem AppState_mk_sel (a : List TaskInfo) (b c : Nat) :
    (AppState.mk a b c).selected_task_index = c := rfl

/-- Projection helper for literal `AppState` records. -/
theorem AppState_mk_cnt (a : List TaskInfo) (b c : Nat) :
    (AppState.mk a b c).current_task_count = b := rfl

/-- Projection helper for literal `AppState` records. -/
theorem AppState_mk_tasks (a : List TaskInfo) (b c : Nat) :
    (AppState.mk a b c).task_info_array = a := rfl

/-- The normal (nonempty, non-`NO_TASKS`) path of
`parse_comma_separated_tasks`, written as a single record expression. -/
theorem parse_normal (st : AppState) (data : List Char) (h1 : data ≠ [])
    (h2 : data ≠ "NO_TASKS".toList) :
    parse_comma_separated_tasks st data =
      { task_info_array := (parseLoop (strtok_split data []) initParseCtx).tasks
        current_task_count := (parseLoop (strtok_split data []) initParseCtx).current_task_count
        selected_task_index :=
          if st.selected_task_index >
                (parseLoop (strtok_split data []) initParseCtx).current_task_count
              ∧ (parseLoop (strtok_split data []) initParseCtx).current_task_count > 0 then
            (parseLoop (strtok_split data []) initParseCtx).current_task_count
          else if (parseLoop (strtok_split data []) initParseCtx).current_task_count = 0 then 1
          else st.selected_task_index } := by
  simp only [parse_comma_separated_tasks]
  rw [if_neg h1, if_neg h2]

/-- C2 counterexample: after parsing `"NO_TASKS"` from a state with
`selected_task_index = 2`, the count is 0 but the selected index is still 2 —
the early return skips the re-clamp. -/
theorem parse_no_tasks_selected_cex :
    (parse_comma_separated_tasks
        { task_info_array := List.replicate 20 emptyTask
          current_task_count := 2
          selected_task_index := 2 } "NO_TASKS".toList).current_task_count = 0 ∧
    (parse_comma_separated_tasks
        { task_info_array := List.replicate 20 emptyTask
          current_task_count := 2
          selected_task_index := 2 } "NO_TASKS".toList).selected_task_index ≠ 1 := by
  decide

/-- C2 amended: parsing `"NO_TASKS"` clears the table and sets the count to 0,
but leaves `selected_task_index` unchanged (the `NO_TASKS` path returns before
the re-clamp), so it equals 1 afterwards only when it was 1 before. -/
theorem parse_no_tasks_amended (st : AppState) :
    (parse_comma_separated_tasks st "NO_TASKS".toList).current_task_count = 0 ∧
    (parse_comma_separated_tasks st "NO_TASKS".toList).selected_task_index
        = st.selected_task_index ∧
    (parse_comma_separated_tasks st "NO_TASKS".toList).task_info_array
        = List.replicate MAX_TASK_COUNT emptyTask :=
  ⟨rfl, rfl, rfl⟩

/-- C3 counterexample: a state satisfying the selected-index invariant
(count 2, selected 2) violates it after the parser runs on `"NO_TASKS"`:
the count becomes 0 while the selected index stays 2. -/
theorem selected_index_inv_cex :
    selectedIndexInv
      { task_info_array := List.replicate 20 emptyTask
        current_task_count := 2
        selected_task_index := 2 } ∧
    ¬ selectedIndexInv (parse_comma_separated_tasks
      { task_info_array := List.replicate 20 emptyTask
        current_task_count := 2
        selected_task_index := 2 } "NO_TASKS".toList) := by
  decide

/-- C3 amended: from any state satisfying the invariant
`selected_task_index ∈ [1, max(count,1)]`, the invariant is preserved by the
up action, the down action, and the parser on any payload that is nonempty
and differs from `"NO_TASKS"`; on the empty and `"NO_TASKS"` payloads the
count becomes 0 while `selected_task_index` is left unchanged (so the
invariant can be violated there). -/
theorem selected_index_inv_preserved (st : AppState) (hinv : selectedIndexInv st) :
    selectedIndexInv (btn_up_event_handler st) ∧
    selectedIndexInv (btn_down_event_handler st) ∧
    (∀ data, data ≠ [] → data ≠ "NO_TASKS".toList →
      selectedIndexInv (parse_comma_separated_tasks st data)) ∧
    (∀ data, data = [] ∨ data = "NO_TASKS".toList →
      (parse_comma_separated_tasks st data).current_task_count = 0 ∧
      (parse_comma_separated_tasks st data).selected_task_index = st.selected_task_index) := by
  obtain ⟨hlo, hhi⟩ := hinv
  refine ⟨?_, ?_, ?_, ?_⟩
  · simp only [btn_up_event_handler, selectedIndexInv]
    split
    · simp only [AppState_mk_sel, AppState_mk_cnt]
      constructor <;> omega
    · constructor <;> omega
  · simp only [btn_down_event_handler, selectedIndexInv]
    split
    · simp only [AppState_mk_sel, AppState_mk_cnt]
      constructor <;> omega
    · constructor <;> omega
  · intro data hd1 hd2
    rw [parse_normal st data hd1 hd2]
    simp only [selectedIndexInv, AppState_mk_sel, AppState_mk_cnt]
    split_ifs <;> constructor <;> omega
  · intro data hd
    rcases hd with rfl | rfl
    · exact ⟨rfl, rfl⟩
    · exact ⟨rfl, rfl⟩

/-- Witness for the amended C3 at a concrete invariant-satisfying state. -/
theorem selected_index_inv_preserved_witness :
    selectedIndexInv (btn_up_event_handler
      { task_info_array := List.replicate 20 emptyTask
        current_task_count := 2
        selected_task_index := 2 }) ∧
    selectedIndexInv (parse_comma_separated_tasks
      { task_info_array := List.replicate 20 emptyTask
        current_task_count := 2
        selected_task_index := 2 } "1.Work,1.1.A".toList) :=
  ⟨(selected_index_inv_preserved _ (by decide)).1,
   (selected_index_inv_preserved _ (by decide)).2.2.1 "1.Work,1.1.A".toList
     (by decide) (by decide)⟩

/-- C6: parsing the example payload yields exactly the three expected records
in order (count 3), with every remaining slot zeroed and invalid. -/
theorem parse_example_payload (st : AppState) :
    (parse_comma_separated_tasks st
        "1.Work,1.1.Write report,2.Home,2.1.Clean,2.2.Cook".toList).current_task_count = 3 ∧
    (parse_comma_separated_tasks st
        "1.Work,1.1.Write report,2.Home,2.1.Clean,2.2.Cook".toList).task_info_array =
      [ { title := "Write report".toList, list_name := "Work".toList
          list_num := 1, task_num := 1, is_valid := true },
        { title := "Clean".toList, list_name := "Home".toList
          list_num := 2, task_num := 1, is_valid := true },
        { title := "Cook".toList, list_name := "Home".toList
          list_num := 2, task_num := 2, is_valid := true } ]
        ++ List.replicate 17 emptyTask := by
  rw [parse_normal st "1.Work,1.1.Write report,2.Home,2.1.Clean,2.2.Cook".toList
    (by decide) (by decide)]
  simp only [AppState_mk_cnt, AppState_mk_tasks]
  exact ⟨by decide, by decide⟩

/-! ## Packet validator/dispatcher (C7) -/

/-- C7: whenever the validator rejects a frame — `PKT_START` not a prefix,
`PKT_END` absent, or checksum verification failing (the CHECKSUM field being
extracted and `atoi`-parsed, with absence yielding 0) — the shared state is
returned unchanged. -/
theorem process_packet_reject_no_effects (st : AppState) (packet : List Char)
    (h : ¬ PKT_START <+: packet ∨ ¬ PKT_END <:+: packet ∨
        verify_checksum (extract_packet_field packet "TYPE".toList 64)
          (extract_packet_field packet "DATA".toList 1024)
          (atoi (extract_packet_field packet "CHECKSUM".toList 16)) = false) :
    process_esp32_packet st packet = st := by
  simp only [process_esp32_packet]
  split_ifs with a b c d
  · rfl
  · rfl
  · rfl
  · exfalso
    rcases h with h1 | h2 | h3
    · exact h1 (strstr_some_starts (not_not.mp a))
    · exact b (strstr_eq_none_iff_no_marker.mpr h2)
    · exact c h3
  · rfl

/-- Witness for C7: a frame with no start marker leaves a concrete state
unchanged. -/
theorem process_packet_reject_no_effects_witness :
    process_esp32_packet
      { task_info_array := List.replicate 20 emptyTask
        current_task_count := 2
        selected_task_index := 2 } "garbage".toList =
      { task_info_array := List.replicate 20 emptyTask
        current_task_count := 2
        selected_task_index := 2 } :=
  process_packet_reject_no_effects _ "garbage".toList (Or.inl (by decide))

/-! ## Capacity truncation (C8) -/

theorem strchr_some_of_mem {s : List Char} {c : Char} (h : c ∈ s) :
    ∃ u, strchr s c = some u := by
  induction s with
  | nil => cases h
  | cons x rest ih =>
    rw [strchr]
    by_cases hx : x = c
    · exact ⟨x :: rest, by rw [if_pos hx]⟩
    · rcases List.mem_cons.mp h with h1 | h2
      · exact absurd h1.symm hx
      · rw [if_neg hx]; exact ih h2

theorem contains_eq_true_iff {l : List Char} {a : Char} :
    l.contains a = true ↔ a ∈ l :=
  List.elem_iff

/-- Each loop iteration either stores one valid record at `task_index`
(task-entry token) or leaves the table, `task_index` and the count unchanged
(list-header or noise token). -/
theorem processToken_cases (ctx : ParseCtx) (t : List Char) :
    (isTaskEntryTok t = true ∧ ∃ r : TaskInfo, r.is_valid = true ∧
       processToken ctx t =
         { ctx with
             tasks := ctx.tasks.set ctx.task_index r
             task_index := ctx.task_index + 1
             current_task_count := ctx.current_task_count + 1 }) ∨
    (isTaskEntryTok t = false ∧ (processToken ctx t).tasks = ctx.tasks ∧
       (processToken ctx t).task_index = ctx.task_index ∧
       (processToken ctx t).current_task_count = ctx.current_task_count) := by
  simp only [processToken, isTaskEntryTok]
  cases htrim : trimTok t with
  | nil => right; exact ⟨rfl, rfl, rfl, rfl⟩
  | cons c0 rest0 =>
    cases rest0 with
    | nil => right; exact ⟨rfl, rfl, rfl, rfl⟩
    | cons c1 rest =>
      dsimp only
      by_cases hA : ('1' ≤ c0 ∧ c0 ≤ '9') ∧ c1 = '.' ∧ rest.contains '.' = false
      · rw [if_pos hA]
        right
        exact ⟨by rw [hA.2.2, Bool.and_false], rfl, rfl, rfl⟩
      · rw [if_neg hA]
        by_cases hB : ('1' ≤ c0 ∧ c0 ≤ '9') ∧ c1 = '.'
        · rw [if_pos hB]
          have hc : rest.contains '.' = true := by
            cases hcb : rest.contains '.'
            · exact absurd ⟨hB.1, hB.2, hcb⟩ hA
            · rfl
          obtain ⟨u, hu⟩ := strchr_some_of_mem (contains_eq_true_iff.mp hc)
          rw [hu]
          left
          exact ⟨by rw [hc, Bool.and_true]; simp [hB.1.1, hB.1.2, hB.2], _, rfl, rfl⟩
        · rw [if_neg hB]
          right
          refine ⟨?_, rfl, rfl, rfl⟩
          have hfront : (decide ('1' ≤ c0) && decide (c0 ≤ '9') && (c1 == '.')) = false := by
            by_cases h1 : '1' ≤ c0
            · by_cases h2 : c0 ≤ '9'
              · have h3 : ¬ c1 = '.' := fun h3 => hB ⟨⟨h1, h2⟩, h3⟩
                simp [h3]
              · simp [h2]
            · simp [h1]
          rw [hfront, Bool.false_and]

/-- Projection helper for literal `ParseCtx` records. -/
theorem ParseCtx_mk_tasks (a : List TaskInfo) (b c : Nat) (d : List Char) (e : Int) :
    (ParseCtx.mk a b c d e).tasks = a := rfl

/-- Projection helper for literal `ParseCtx` records. -/
theorem ParseCtx_mk_idx (a : List TaskInfo) (b c : Nat) (d : List Char) (e : Int) :
    (ParseCtx.mk a b c d e).task_index = b := rfl

/-- Projection helper for literal `ParseCtx` records. -/
theorem ParseCtx_mk_cnt (a : List TaskInfo) (b c : Nat) (d : List Char) (e : Int) :
    (ParseCtx.mk a b c d e).current_task_count = c := rfl

theorem processToken_index (ctx : ParseCtx) (t : List Char) :
    (processToken ctx t).task_index =
      if isTaskEntryTok t then ctx.task_index + 1 else ctx.task_index := by
  rcases processToken_cases ctx t with ⟨he, r, hr, heq⟩ | ⟨he, ht, hix, hct⟩
  · rw [heq, if_pos he]
  · rw [hix, if_neg (by simp [he])]

/-- Loop invariant: the table keeps its capacity length, `task_index` stays
within capacity, the count tracks `task_index`, and every slot below
`task_index` holds a valid record. -/
theorem parseLoop_invariant (toks : List (List Char)) (ctx : ParseCtx)
    (hlen : ctx.tasks.length = MAX_TASK_COUNT)
    (hidx : ctx.task_index ≤ MAX_TASK_COUNT)
    (hcnt : ctx.current_task_count = ctx.task_index)
    (hval : ∀ i, i < ctx.task_index → ∀ r, ctx.tasks[i]? = some r → r.is_valid = true) :
    (parseLoop toks ctx).tasks.length = MAX_TASK_COUNT ∧
    (parseLoop toks ctx).task_index ≤ MAX_TASK_COUNT ∧
    (parseLoop toks ctx).current_task_count = (parseLoop toks ctx).task_index ∧
    (∀ i, i < (parseLoop toks ctx).task_index → ∀ r,
        (parseLoop toks ctx).tasks[i]? = some r → r.is_valid = true) := by
  induction toks generalizing ctx with
  | nil => exact ⟨hlen, hidx, hcnt, hval⟩
  | cons t r ih =>
    rw [parseLoop]
    by_cases hlt : ctx.task_index < MAX_TASK_COUNT
    · rw [if_pos hlt]
      rcases processToken_cases ctx t with ⟨he, rec0, hrv, heq⟩ | ⟨he, ht, hix, hct⟩
      · rw [heq]
        refine ih _ ?_ ?_ ?_ ?_
        · simp only [ParseCtx_mk_tasks, List.length_set]
          exact hlen
        · simp only [ParseCtx_mk_idx]
          omega
        · simp only [ParseCtx_mk_idx, ParseCtx_mk_cnt]
          omega
        · simp only [ParseCtx_mk_idx, ParseCtx_mk_tasks]
          intro i hi rr hgr
          by_cases hieq : i = ctx.task_index
          · subst hieq
            rw [List.getElem?_set_self (by omega)] at hgr
            cases hgr
            exact hrv
          · rw [List.getElem?_set_ne (fun hh => hieq hh.symm)] at hgr
            exact hval i (by omega) rr hgr
      · refine ih _ ?_ ?_ ?_ ?_
        · rw [ht]; exact hlen
        · rw [hix]; exact hidx
        · rw [hix, hct]; exact hcnt
        · rw [hix, ht]; exact hval
    · rw [if_neg hlt]
      exact ⟨hlen, hidx, hcnt, hval⟩

/-- After the loop, `task_index` is the number of task-entry tokens, capped at
the table capacity. -/
theorem parseLoop_index (toks : List (List Char)) (ctx : ParseCtx)
    (hidx : ctx.task_index ≤ MAX_TASK_COUNT) :
    (parseLoop toks ctx).task_index =
      min MAX_TASK_COUNT (ctx.task_index + countEntries toks) := by
  induction toks generalizing ctx with
  | nil =>
    rw [parseLoop]
    simp only [countEntries, List.countP_nil]
    omega
  | cons t r ih =>
    rw [parseLoop]
    have hsplit : countEntries (t :: r) =
        countEntries r + (if isTaskEntryTok t then 1 else 0) := by
      simp only [countEntries, List.countP_cons]
    by_cases hlt : ctx.task_index < MAX_TASK_COUNT
    · rw [if_pos hlt]
      rw [ih _ (by rw [processToken_index]; split <;> omega)]
      rw [processToken_index, hsplit]
      by_cases he : isTaskEntryTok t
      · simp only [if_pos he]
        omega
      · simp only [if_neg he]
        omega
    · rw [if_neg hlt, hsplit]
      omega

/-- The loop only ever looks at the prefix of the token sequence up to and
including the capacity-th task entry: all later tokens are ignored. -/
theorem parseLoop_eq_takeUntil (toks : List (List Char)) (ctx : ParseCtx) :
    parseLoop toks ctx =
      parseLoop (takeUntilEntries (MAX_TASK_COUNT - ctx.task_index) toks) ctx := by
  induction toks generalizing ctx with
  | nil => cases hn : MAX_TASK_COUNT - ctx.task_index <;> rfl
  | cons t r ih =>
    by_cases hlt : ctx.task_index < MAX_TASK_COUNT
    · have hn : MAX_TASK_COUNT - ctx.task_index = (MAX_TASK_COUNT - ctx.task_index - 1) + 1 := by
        omega
      rw [hn, takeUntilEntries]
      by_cases he : isTaskEntryTok t
      · rw [if_pos he, parseLoop, parseLoop, if_pos hlt, if_pos hlt]
        rw [ih (processToken ctx t)]
        have : MAX_TASK_COUNT - (processToken ctx t).task_index =
            MAX_TASK_COUNT - ctx.task_index - 1 := by
          rw [processToken_index, if_pos he]
          omega
        rw [this]
      · rw [if_neg he, parseLoop, parseLoop, if_pos hlt, if_pos hlt]
        rw [ih (processToken ctx t)]
        have : MAX_TASK_COUNT - (processToken ctx t).task_index =
            (MAX_TASK_COUNT - ctx.task_index - 1) + 1 := by
          rw [processToken_index, if_neg he]
          omega
        rw [this]
    · have hn : MAX_TASK_COUNT - ctx.task_index = 0 := by omega
      rw [hn, takeUntilEntries]
      conv_lhs => rw [parseLoop]
      rw [if_neg hlt, parseLoop]

/-- C8: for every payload with more task-entry tokens than the capacity (20),
the parser stores exactly 20 records — every table slot ends up valid, the
count equals the capacity — and the loop result equals the result of
processing only the tokens up to and including the 20th task entry (all
remaining tokens are ignored). -/
theorem parse_capacity_truncation (st : AppState) (data : List Char)
    (h : MAX_TASK_COUNT < countEntries (strtok_split data [])) :
    (parse_comma_separated_tasks st data).current_task_count = MAX_TASK_COUNT ∧
    (parse_comma_separated_tasks st data).task_info_array.all (fun r => r.is_valid) = true ∧
    parseLoop (strtok_split data []) initParseCtx =
      parseLoop (takeUntilEntries MAX_TASK_COUNT (strtok_split data [])) initParseCtx := by
  have hd1 : data ≠ [] := by rintro rfl; revert h; decide
  have hd2 : data ≠ "NO_TASKS".toList := by rintro rfl; revert h; decide
  have hinv := parseLoop_invariant (strtok_split data []) initParseCtx
    (by simp [initParseCtx]) (by simp [initParseCtx]) rfl
    (by intro i hi rr hgr; exact absurd hi (by simp [initParseCtx]))
  have hidx := parseLoop_index (strtok_split data []) initParseCtx (by simp [initParseCtx])
  have hi0 : initParseCtx.task_index = 0 := rfl
  have hidxv : (parseLoop (strtok_split data []) initParseCtx).task_index = MAX_TASK_COUNT := by
    rw [hidx, hi0]
    omega
  rw [parse_normal st data hd1 hd2]
  refine ⟨?_, ?_, ?_⟩
  · simp only [AppState_mk_cnt]
    rw [hinv.2.2.1, hidxv]
  · simp only [AppState_mk_tasks]
    rw [List.all_eq_true]
    intro x hx
    obtain ⟨i, hilen, hieq⟩ := List.mem_iff_getElem.mp hx
    have hlen20 := hinv.1
    exact hinv.2.2.2 i (by omega) x (by rw [List.getElem?_eq_getElem hilen, hieq])
  · have := parseLoop_eq_takeUntil (strtok_split data []) initParseCtx
    rwa [show MAX_TASK_COUNT - initParseCtx.task_index = MAX_TASK_COUNT from rfl] at this

/-- Witness for C8: a payload of 21 task-entry tokens fills exactly the 20
table slots. -/
theorem parse_capacity_truncation_witness :
    (parse_comma_separated_tasks
        { task_info_array := List.replicate 20 emptyTask
          current_task_count := 0
          selected_task_index := 1 }
        (List.replicate 21 "1.1.T,".toList).flatten).current_task_count = MAX_TASK_COUNT ∧
    (parse_comma_separated_tasks
        { task_info_array := List.replicate 20 emptyTask
          current_task_count := 0
          selected_task_index := 1 }
        (List.replicate 21 "1.1.T,".toList).flatten).task_info_array.all
        (fun r => r.is_valid) = true ∧
    parseLoop (strtok_split (List.replicate 21 "1.1.T,".toList).flatten []) initParseCtx =
      parseLoop (takeUntilEntries MAX_TASK_COUNT
        (strtok_split (List.replicate 21 "1.1.T,".toList).flatten [])) initParseCtx :=
  parse_capacity_truncation
    { task_info_array := List.replicate 20 emptyTask
      current_task_count := 0
      selected_task_index := 1 }
    (List.replicate 21 "1.1.T,".toList).flatten (by decide)

/-! ## Byte-stream reassembly: streaming vs. batch scanning (C1, C4) -/

/-- Projection helper for literal `ReasmState` records. -/
theorem ReasmState_mk_buf (b : List Char) (p : Bool) : (ReasmState.mk b p).buf = b := rfl

theorem ReasmState_mk_inp (b : List Char) (p : Bool) : (ReasmState.mk b p).in_packet = p := rfl

theorem rx_byte_seeking_none {buf : List Char} {ch : Char}
    (hov : ¬ buf.length ≥ UART_RX_BUFFER_SIZE - 1)
    (hss : strstr (buf ++ [ch]) PKT_START = none)
    (hsmall : ¬ (buf ++ [ch]).length > 100) :
    esp32_uart_rx_byte ⟨buf, false⟩ ch = (⟨buf ++ [ch], false⟩, []) := by
  simp only [esp32_uart_rx_byte, ReasmState_mk_buf, ReasmState_mk_inp, if_neg hov, hss,
    if_neg hsmall]
  simp

theorem rx_byte_seeking_found {buf t : List Char} {ch : Char}
    (hov : ¬ buf.length ≥ UART_RX_BUFFER_SIZE - 1)
    (hss : strstr (buf ++ [ch]) PKT_START = some t)
    (hend : strstr t PKT_END = none) :
    esp32_uart_rx_byte ⟨buf, false⟩ ch = (⟨t, true⟩, []) := by
  simp only [esp32_uart_rx_byte, ReasmState_mk_buf, ReasmState_mk_inp, if_neg hov, hss, hend]
  simp [hend]

theorem rx_byte_inpacket_noend {buf : List Char} {ch : Char}
    (hov : ¬ buf.length ≥ UART_RX_BUFFER_SIZE - 1)
    (hend : strstr (buf ++ [ch]) PKT_END = none) :
    esp32_uart_rx_byte ⟨buf, true⟩ ch = (⟨buf ++ [ch], true⟩, []) := by
  simp only [esp32_uart_rx_byte, ReasmState_mk_buf, ReasmState_mk_inp, if_neg hov, hend]
  simp [hend]

theorem rx_byte_inpacket_end {buf e : List Char} {ch : Char}
    (hov : ¬ buf.length ≥ UART_RX_BUFFER_SIZE - 1)
    (hend : strstr (buf ++ [ch]) PKT_END = some e) :
    esp32_uart_rx_byte ⟨buf, true⟩ ch =
      (⟨if (buf ++ [ch]).length > (buf ++ [ch]).length - e.length + PKT_END.length then
          (buf ++ [ch]).drop ((buf ++ [ch]).length - e.length + PKT_END.length)
        else [], false⟩,
       [(buf ++ [ch]).take ((buf ++ [ch]).length - e.length + PKT_END.length)]) := by
  simp only [esp32_uart_rx_byte, ReasmState_mk_buf, ReasmState_mk_inp, if_neg hov, hend]
  simp [hend]

theorem wf_length {f : List Char} (hwf : wellFormedFrame f) : 20 ≤ f.length := by
  obtain ⟨⟨body, hbody⟩, -, -, -⟩ := hwf
  subst hbody
  have h1 : PKT_START.length = 11 := rfl
  have h2 : PKT_END.length = 9 := rfl
  simp only [List.length_append]
  try omega

theorem wf_end_first {f : List Char} (hwf : wellFormedFrame f) :
    strstr f PKT_END = some (f.drop (f.length - PKT_END.length)) := by
  obtain ⟨⟨body, hbody⟩, hone, -, -⟩ := hwf
  have h1 : PKT_START.length = 11 := rfl
  have h2 : PKT_END.length = 9 := rfl
  have hlen : f.length = PKT_START.length + body.length + PKT_END.length := by
    rw [hbody]
    simp only [List.length_append]
  apply strstr_eq_some_first
  · have hdrop : f.drop (f.length - PKT_END.length) = PKT_END := by
      rw [hbody]
      refine List.drop_left' ?_
      simp only [List.length_append]
      omega
    rw [hdrop]
  · intro q hq hpre
    have := hone q (by omega) (List.isPrefixOf_iff_prefix.mpr hpre)
    omega

theorem wf_end_take_none {f : List Char} (hwf : wellFormedFrame f) :
    ∀ i, i < f.length → strstr (f.take i) PKT_END = none := by
  obtain ⟨⟨body, hbody⟩, hone, -, -⟩ := hwf
  intro i hi
  rw [strstr_eq_none_iff]
  intro p hp
  have h2 : PKT_END.length = 9 := rfl
  have hplen := hp.length_le
  rw [List.length_drop, List.length_take] at hplen
  have hp2 : PKT_END <+: f.drop p := hp.trans ((List.take_prefix i f).drop p)
  have := hone p (by omega) (List.isPrefixOf_iff_prefix.mpr hp2)
  omega

theorem rx_stream_inframe (f : List Char) (hwf : wellFormedFrame f) :
    ∀ k j, f.length - j ≤ k → 11 ≤ j → j < f.length →
      esp32_uart_rx_stream (f.drop j) ⟨f.take j, true⟩ = (⟨[], false⟩, [f]) := by
  have hcap : f.length ≤ UART_RX_BUFFER_SIZE - 1 := hwf.2.2.1
  have hub : UART_RX_BUFFER_SIZE = 2048 := rfl
  have hEM : PKT_END.length = 9 := rfl
  have h20 := wf_length hwf
  intro k
  induction k with
  | zero =>
    intro j hk h11 hlt
    omega
  | succ k ih =>
    intro j hk h11 hlt
    rw [List.drop_eq_getElem_cons hlt]
    simp only [esp32_uart_rx_stream]
    have hov : ¬ (f.take j).length ≥ UART_RX_BUFFER_SIZE - 1 := by
      rw [List.length_take]
      omega
    have htake : f.take j ++ [f[j]] = f.take (j + 1) := by
      rw [← List.take_concat_get f j hlt, List.concat_eq_append]
    by_cases hlast : j + 1 = f.length
    · have hbuf : f.take j ++ [f[j]] = f := by
        rw [htake, hlast, List.take_length]
      have hend : strstr (f.take j ++ [f[j]]) PKT_END =
          some (f.drop (f.length - PKT_END.length)) := by
        rw [hbuf]
        exact wf_end_first hwf
      rw [rx_byte_inpacket_end hov hend]
      have helen : (f.drop (f.length - PKT_END.length)).length = PKT_END.length := by
        rw [List.length_drop]
        omega
      rw [hbuf, helen]
      have hplen : f.length - PKT_END.length + PKT_END.length = f.length := by omega
      rw [hplen]
      have hdrop1 : f.drop (j + 1) = [] := by
        rw [hlast, List.drop_length]
      rw [hdrop1]
      simp [esp32_uart_rx_stream]
    · have hend : strstr (f.take j ++ [f[j]]) PKT_END = none := by
        rw [htake]
        exact wf_end_take_none hwf (j + 1) (by omega)
      rw [rx_byte_inpacket_noend hov hend]
      dsimp only
      rw [htake]
      rw [ih (j + 1) (by omega) (by omega) (by omega)]
      rfl

theorem rx_stream_append (a b : List Char) (st : ReasmState) :
    esp32_uart_rx_stream (a ++ b) st =
      ((esp32_uart_rx_stream b (esp32_uart_rx_stream a st).1).1,
       (esp32_uart_rx_stream a st).2 ++ (esp32_uart_rx_stream b (esp32_uart_rx_stream a st).1).2) := by
  induction a generalizing st with
  | nil => simp [esp32_uart_rx_stream]
  | cons c r ih =>
    simp only [List.cons_append, esp32_uart_rx_stream, List.append_eq]
    rw [ih]
    simp [List.append_assoc]

theorem prefix_cons_head {c : Char} {n l : List Char} (h : (c :: n) <+: l) :
    ∃ t, l = c :: t := by
  rcases h with ⟨u, hu⟩
  exact ⟨n ++ u, by rw [← hu]; rfl⟩

theorem no_start_at_noise_pos {nz rest2 : List Char} {q : Nat}
    (hnz : ∀ c ∈ nz, c ≠ '<') (hq : q < nz.length) :
    ¬ PKT_START <+: (nz ++ rest2).drop q := by
  intro hp
  rw [List.drop_append_of_le_length (by omega), List.drop_eq_getElem_cons hq,
    List.cons_append] at hp
  rw [show PKT_START = '<' :: "PKT_START>".toList from rfl] at hp
  obtain ⟨t, ht⟩ := prefix_cons_head hp
  have hhead : nz[q] = '<' := by injection ht with h1 h2
  exact hnz _ (List.getElem_mem _) hhead

theorem strstr_start_none_noise_pre {nz pre : List Char}
    (hnz : ∀ c ∈ nz, c ≠ '<') (hlen : pre.length < PKT_START.length) :
    strstr (nz ++ pre) PKT_START = none := by
  rw [strstr_eq_none_iff]
  intro p hp
  by_cases hq : p < nz.length
  · exact no_start_at_noise_pos hnz hq hp
  · have := hp.length_le
    rw [List.length_drop, List.length_append] at this
    omega

theorem strstr_start_found {nz X : List Char}
    (hnz : ∀ c ∈ nz, c ≠ '<') (hX : PKT_START <+: X) :
    strstr (nz ++ X) PKT_START = some X := by
  have h := strstr_eq_some_first (s := nz ++ X) (n := PKT_START) nz.length
    (by rw [List.drop_left]; exact hX)
    (fun q hq => no_start_at_noise_pos hnz hq)
  rwa [List.drop_left] at h

theorem rx_stream_noise (nz : List Char) :
    ∀ buf, (buf ++ nz).length ≤ 100 → (∀ c ∈ buf ++ nz, c ≠ '<') →
      esp32_uart_rx_stream nz ⟨buf, false⟩ = (⟨buf ++ nz, false⟩, []) := by
  induction nz with
  | nil =>
    intro buf _ _
    simp [esp32_uart_rx_stream]
  | cons c r ih =>
    intro buf hlen hlt
    simp only [esp32_uart_rx_stream]
    have hub : UART_RX_BUFFER_SIZE = 2048 := rfl
    rw [List.length_append, List.length_cons] at hlen
    have hov : ¬ buf.length ≥ UART_RX_BUFFER_SIZE - 1 := by omega
    have hss : strstr (buf ++ [c]) PKT_START = none := by
      apply strstr_eq_none_iff.mpr
      intro p hp
      by_cases hq : p < buf.length
      · exact no_start_at_noise_pos
          (fun x hx => hlt x (List.mem_append_left _ hx)) hq hp
      · have hle := hp.length_le
        simp only [List.length_drop, List.length_append, List.length_cons,
          List.length_nil] at hle
        have h11 : PKT_START.length = 11 := rfl
        by_cases hq2 : p = buf.length
        · subst hq2
          rw [List.drop_left] at hp
          rw [show PKT_START = '<' :: "PKT_START>".toList from rfl] at hp
          obtain ⟨t, ht⟩ := prefix_cons_head hp
          have : c = '<' := by injection ht with h1 h2
          exact hlt c (List.mem_append_right _ (List.mem_cons_self c r)) this
        · omega
    have hsmall : ¬ (buf ++ [c]).length > 100 := by
      simp only [List.length_append, List.length_cons, List.length_nil]
      omega
    rw [rx_byte_seeking_none hov hss hsmall]
    dsimp only
    rw [ih (buf ++ [c]) (by simp only [List.length_append, List.length_cons, List.length_nil]; omega)
      (by intro x hx
          rcases List.mem_append.mp hx with hx1 | hx2
          · rcases List.mem_append.mp hx1 with hx3 | hx4
            · exact hlt x (List.mem_append_left _ hx3)
            · rw [List.mem_singleton] at hx4
              subst hx4
              exact hlt x (List.mem_append_right _ (List.mem_cons_self x r))
          · exact hlt x (List.mem_append_right _ (List.mem_cons_of_mem c hx2)))]
    simp [List.append_assoc]

theorem wf_take11 {f : List Char} (hwf : wellFormedFrame f) : f.take 11 = PKT_START := by
  obtain ⟨⟨body, hbody⟩, -, -, -⟩ := hwf
  rw [hbody, List.append_assoc]
  exact List.take_left' rfl

theorem rx_stream_marker (f : List Char) (hwf : wellFormedFrame f) (nz : List Char)
    (hnz90 : nz.length ≤ 90) (hnzlt : ∀ c ∈ nz, c ≠ '<') :
    ∀ k j, 11 - j ≤ k → j ≤ 10 →
      esp32_uart_rx_stream (f.drop j) ⟨nz ++ f.take j, false⟩ = (⟨[], false⟩, [f]) := by
  have hub : UART_RX_BUFFER_SIZE = 2048 := rfl
  have h20 := wf_length hwf
  have h11 : PKT_START.length = 11 := rfl
  intro k
  induction k with
  | zero =>
    intro j hk hj
    omega
  | succ k ih =>
    intro j hk hj
    have hlt : j < f.length := by omega
    rw [List.drop_eq_getElem_cons hlt]
    simp only [esp32_uart_rx_stream]
    have hov : ¬ (nz ++ f.take j).length ≥ UART_RX_BUFFER_SIZE - 1 := by
      simp only [List.length_append, List.length_take]
      omega
    have htake0 : f.take j ++ [f[j]] = f.take (j + 1) := by
      rw [← List.take_concat_get f j hlt, List.concat_eq_append]
    have htake : (nz ++ f.take j) ++ [f[j]] = nz ++ f.take (j + 1) := by
      rw [List.append_assoc, htake0]
    by_cases hm : j + 1 = 11
    · have htake11 : f.take (j + 1) = PKT_START := by
        rw [hm]
        exact wf_take11 hwf
      have hfound : strstr ((nz ++ f.take j) ++ [f[j]]) PKT_START = some PKT_START := by
        rw [htake, htake11]
        exact strstr_start_found hnzlt (List.prefix_refl _)
      have hendSM : strstr PKT_START PKT_END = none := by decide
      rw [rx_byte_seeking_found hov hfound hendSM]
      dsimp only
      rw [show PKT_START = f.take 11 from (wf_take11 hwf).symm, show j + 1 = 11 from hm]
      rw [rx_stream_inframe f hwf f.length 11 (by omega) (by omega) (by omega)]
      rfl
    · have hss : strstr ((nz ++ f.take j) ++ [f[j]]) PKT_START = none := by
        rw [htake]
        apply strstr_start_none_noise_pre hnzlt
        rw [List.length_take]
        omega
      have hsmall : ¬ ((nz ++ f.take j) ++ [f[j]]).length > 100 := by
        simp only [List.length_append, List.length_take, List.length_cons, List.length_nil]
        omega
      rw [rx_byte_seeking_none hov hss hsmall]
      dsimp only
      rw [htake]
      rw [ih (j + 1) (by omega) (by omega)]
      rfl

theorem rx_stream_block (nz f : List Char) (hnz : noiseOK nz) (hwf : wellFormedFrame f) :
    esp32_uart_rx_stream (nz ++ f) initReasm = (initReasm, [f]) := by
  obtain ⟨hnz90, hnzc⟩ := hnz
  rw [rx_stream_append]
  have hnoise : esp32_uart_rx_stream nz ⟨[], false⟩ = (⟨[] ++ nz, false⟩, []) :=
    rx_stream_noise nz [] (by simp only [List.nil_append]; omega)
      (by intro c hc; simp at hc; exact (hnzc c hc).1)
  rw [show initReasm = (⟨[], false⟩ : ReasmState) from rfl, hnoise]
  dsimp only
  have hmark := rx_stream_marker f hwf nz hnz90 (fun c hc => (hnzc c hc).1) 11 0
    (by omega) (by omega)
  simp only [List.drop_zero, List.take_zero, List.append_nil] at hmark
  simp only [List.nil_append]
  rw [hmark]

theorem rx_stream_blocks (blocks : List (List Char × List Char))
    (h : ∀ b ∈ blocks, noiseOK b.1 ∧ wellFormedFrame b.2) :
    esp32_uart_rx_stream ((blocks.map (fun b => b.1 ++ b.2)).flatten) initReasm =
      (initReasm, blocks.map Prod.snd) := by
  induction blocks with
  | nil => simp [esp32_uart_rx_stream]
  | cons b bs ih =>
    simp only [List.map_cons, List.flatten_cons]
    rw [rx_stream_append]
    obtain ⟨hnz, hwf⟩ := h b (List.mem_cons_self _ _)
    rw [rx_stream_block b.1 b.2 hnz hwf]
    dsimp only
    rw [ih (fun x hx => h x (List.mem_cons_of_mem _ hx))]
    rfl

theorem prefix_of_append {n x y : List Char} (h : n <+: x ++ y) (hlen : n.length ≤ x.length) :
    n <+: x := by
  have h1 := List.prefix_iff_eq_take.mp h
  rw [List.take_append_of_le_length hlen] at h1
  exact List.prefix_iff_eq_take.mpr h1

theorem wf_start {f : List Char} (hwf : wellFormedFrame f) : PKT_START <+: f := by
  obtain ⟨⟨body, hbody⟩, -, -, -⟩ := hwf
  rw [hbody, List.append_assoc]
  exact List.prefix_append _ _

theorem wf_end_suffix {f : List Char} (hwf : wellFormedFrame f) :
    f.drop (f.length - PKT_END.length) = PKT_END := by
  obtain ⟨⟨body, hbody⟩, -, -, -⟩ := hwf
  have h1 : PKT_START.length = 11 := rfl
  have h2 : PKT_END.length = 9 := rfl
  rw [hbody]
  refine List.drop_left' ?_
  simp only [List.length_append]
  omega

theorem batch_end_found {f rest : List Char} (hwf : wellFormedFrame f) :
    strstr (f ++ rest) PKT_END =
      some ((f ++ rest).drop (f.length - PKT_END.length)) := by
  have h2 : PKT_END.length = 9 := rfl
  have h20 := wf_length hwf
  have hone := hwf.2.1
  apply strstr_eq_some_first
  · rw [List.drop_append_of_le_length (by omega), wf_end_suffix hwf]
    exact List.prefix_append _ _
  · intro q hq hp
    have hq9 : PKT_END <+: f.drop q := by
      rw [List.drop_append_of_le_length (by omega)] at hp
      exact prefix_of_append hp (by rw [List.length_drop]; omega)
    have := hone q (by omega) (List.isPrefixOf_iff_prefix.mpr hq9)
    omega

theorem batchScanFuel_blocks (blocks : List (List Char × List Char)) :
    ∀ fuel, ((blocks.map (fun b => b.1 ++ b.2)).flatten).length ≤ fuel →
    (∀ b ∈ blocks, noiseOK b.1 ∧ wellFormedFrame b.2) →
    batchScanFuel fuel ((blocks.map (fun b => b.1 ++ b.2)).flatten) = blocks.map Prod.snd := by
  induction blocks with
  | nil =>
    intro fuel _ _
    cases fuel with
    | zero => rfl
    | succ m =>
      simp only [List.map_nil, List.flatten_nil, batchScanFuel]
      rw [show strstr [] PKT_START = none from by decide]
  | cons b bs ih =>
    intro fuel hfuel h
    obtain ⟨hnz, hwf⟩ := h b (List.mem_cons_self _ _)
    have h20 := wf_length hwf
    have h2 : PKT_END.length = 9 := rfl
    simp only [List.map_cons, List.flatten_cons] at hfuel ⊢
    have hslen : (b.1 ++ b.2 ++ (bs.map (fun b => b.1 ++ b.2)).flatten).length =
        b.1.length + b.2.length + ((bs.map (fun b => b.1 ++ b.2)).flatten).length := by
      simp only [List.length_append]
    cases fuel with
    | zero =>
      rw [hslen] at hfuel
      omega
    | succ m =>
      rw [batchScanFuel]
      rw [List.append_assoc]
      rw [strstr_start_found (fun c hc => (hnz.2 c hc).1)
        ((wf_start hwf).trans (List.prefix_append _ _))]
      dsimp only
      rw [batch_end_found hwf]
      dsimp only
      have hplen : (b.2 ++ (bs.map (fun b => b.1 ++ b.2)).flatten).length -
          ((b.2 ++ (bs.map (fun b => b.1 ++ b.2)).flatten).drop
            (b.2.length - PKT_END.length)).length + PKT_END.length = b.2.length := by
        rw [List.length_drop, List.length_append]
        omega
      rw [hplen]
      rw [List.take_left, List.drop_left]
      rw [ih m (by rw [hslen] at hfuel; omega) (fun x hx => h x (List.mem_cons_of_mem _ hx))]

/-- C1 counterexample: 91 noise bytes immediately followed by a complete
frame.  While seeking, the callback clears the buffer as soon as it exceeds
100 bytes without a start marker (lv_test.c:678-683), which here deletes the
partially received `"<PKT_START"`; the frame is lost by the streaming
reassembler although the batch scan of the whole stream finds it. -/
theorem stream_batch_cex :
    (esp32_uart_rx_stream (List.replicate 91 'x' ++ "<PKT_START><PKT_END>".toList) initReasm).2 ≠
      batchScan (List.replicate 91 'x' ++ "<PKT_START><PKT_END>".toList) := by
  decide

/-- C1 amended: for every stream that is a concatenation of blocks, each a
burst of at most 90 marker-free noise bytes followed by a well-formed frame
(`PKT_START` ... `PKT_END`, the end marker occurring only at the end, at most
2047 bytes, NUL-free), byte-at-a-time streaming reassembly emits exactly the
frame sequence, and so does the batch scan of the whole stream
(streaming ≡ batch on such streams).  The equivalence fails in general: the
100-byte noise discard can delete a partially received start marker
(`stream_batch_cex`). -/
theorem stream_equiv_batch (blocks : List (List Char × List Char))
    (h : ∀ b ∈ blocks, noiseOK b.1 ∧ wellFormedFrame b.2) :
    (esp32_uart_rx_stream ((blocks.map (fun b => b.1 ++ b.2)).flatten) initReasm).2 =
      blocks.map Prod.snd ∧
    batchScan ((blocks.map (fun b => b.1 ++ b.2)).flatten) = blocks.map Prod.snd := by
  constructor
  · rw [rx_stream_blocks blocks h]
  · show batchScanFuel ((blocks.map (fun b => b.1 ++ b.2)).flatten).length
        ((blocks.map (fun b => b.1 ++ b.2)).flatten) = blocks.map Prod.snd
    exact batchScanFuel_blocks blocks _ (Nat.le_refl _) h

/-- Witness for the amended C1: one noise burst plus one concrete frame. -/
theorem stream_equiv_batch_witness :
    (esp32_uart_rx_stream
        (([("xy".toList, "<PKT_START>A<PKT_END>".toList)].map (fun b => b.1 ++ b.2)).flatten)
        initReasm).2 = [("xy".toList, "<PKT_START>A<PKT_END>".toList)].map Prod.snd ∧
    batchScan
        (([("xy".toList, "<PKT_START>A<PKT_END>".toList)].map (fun b => b.1 ++ b.2)).flatten) =
      [("xy".toList, "<PKT_START>A<PKT_END>".toList)].map Prod.snd :=
  stream_equiv_batch [("xy".toList, "<PKT_START>A<PKT_END>".toList)]
    (by
      intro b hb
      rw [List.mem_singleton] at hb
      subst hb
      exact ⟨⟨by decide, by decide⟩, ⟨"A".toList, by decide⟩, by decide, by decide, by decide⟩)

/-- Any NUL-free, `'<'`-free body wrapped in the protocol markers forms a
well-formed frame. -/
theorem wellFormedFrame_mk (body : List Char) (hlt : ∀ c ∈ body, c ≠ '<')
    (hnul : ∀ c ∈ body, c ≠ NUL) (hcap : body.length + 20 ≤ UART_RX_BUFFER_SIZE - 1) :
    wellFormedFrame (PKT_START ++ body ++ PKT_END) := by
  have h11 : PKT_START.length = 11 := rfl
  have h9 : PKT_END.length = 9 := rfl
  have hub : UART_RX_BUFFER_SIZE = 2048 := rfl
  refine ⟨⟨body, rfl⟩, ?_, ?_, ?_⟩
  · intro p hp hpre
    rw [List.isPrefixOf_iff_prefix] at hpre
    simp only [List.length_append] at hp ⊢
    by_cases hreg : p < PKT_START.length + body.length
    · exfalso
      by_cases hp0 : p = 0
      · subst hp0
        rw [List.drop_zero] at hpre
        have heq := List.prefix_iff_eq_take.mp hpre
        rw [h9] at heq
        rw [List.take_append_of_le_length (by simp only [List.length_append]; omega),
          List.take_append_of_le_length (by omega)] at heq
        exact absurd heq (by decide)
      · have hreg2 : p < (PKT_START ++ body).length := by
          rw [List.length_append]
          omega
        rw [List.drop_append_of_le_length (Nat.le_of_lt hreg2),
          List.drop_eq_getElem_cons hreg2, List.cons_append] at hpre
        rw [show PKT_END = '<' :: "PKT_END>".toList from rfl] at hpre
        obtain ⟨t, ht⟩ := prefix_cons_head hpre
        have hhead : (PKT_START ++ body)[p] = '<' := by injection ht with hh hh2
        by_cases hsm : p < PKT_START.length
        · rw [List.getElem_append_left hsm] at hhead
          have hone : 1 ≤ p := by omega
          have hh3 : PKT_START[p]? = some '<' := by
            rw [List.getElem?_eq_getElem hsm]
            exact congrArg some hhead
          rw [h11] at hsm
          interval_cases p <;> exact absurd hh3 (by decide)
        · rw [List.getElem_append_right (Nat.le_of_not_lt hsm)] at hhead
          exact hlt _ (List.getElem_mem _) hhead
    · have hlen := hpre.length_le
      rw [List.length_drop] at hlen
      simp only [List.length_append] at hlen hreg
      omega
  · simp only [List.length_append]
    omega
  · intro c hc
    rcases List.mem_append.mp hc with hc1 | hc2
    · rcases List.mem_append.mp hc1 with hs | hb
      · have hh : ∀ x ∈ PKT_START, x ≠ NUL := by decide
        exact hh c hs
      · exact hnul c hb
    · have hh : ∀ x ∈ PKT_END, x ≠ NUL := by decide
      exact hh c hc2

/-- C4 is violated by the code: a frame of 1040 bytes (body of 1020 `'a'`s)
fits the 2048-byte accumulation buffer and is emitted whole, yet exceeds
`UART_MSG_MAX_SIZE - 1 = 1023`; the callback's `rt_strncpy(msg.data, ...,
pkt_len)` and `msg.data[pkt_len] = 0` (lv_test.c:696-697) then write past the
1024-byte `msg.data` buffer. -/
theorem oversized_frame_emitted :
    (esp32_uart_rx_stream (PKT_START ++ List.replicate 1020 'a' ++ PKT_END) initReasm).2.map
        List.length = [1040] ∧
    UART_MSG_MAX_SIZE - 1 < 1040 := by
  have hwf : wellFormedFrame (PKT_START ++ List.replicate 1020 'a' ++ PKT_END) :=
    wellFormedFrame_mk (List.replicate 1020 'a')
      (by intro c hc; have := List.eq_of_mem_replicate hc; subst this; decide)
      (by intro c hc; have := List.eq_of_mem_replicate hc; subst this; decide)
      (by decide)
  constructor
  · have hb := rx_stream_block [] (PKT_START ++ List.replicate 1020 'a' ++ PKT_END)
      ⟨by decide, by decide⟩ hwf
    rw [List.nil_append] at hb
    rw [hb]
    decide
  · decide
